import Mathlib

set_option linter.dupNamespace false

/-!
# Mastermind ("Logik"): scoring engine and game session

Shallow embedding of the game logic of `src/main.cpp`:

* `PinState`, `PinGuessResult`, `PinGuess`, `Board` : the data model;
* `PinGuessResult.PinGuessResult` : the scoring constructor (two nested `for` loops);
* `App.Update`, `App.KeyPressHandler`, `App.IsGameOver`, `App.RevertOneGuessPin`,
  `App.MakeAGuess`, `App.AddActual` : the session operations.

Only the fields of `App` that carry game state (`actualPins`, `board`, `guess`) are kept;
the X11 handles and the drawing calls neither read nor write them.

Conventions.  A `std::array<unsigned int, 5>` is a function `Fin 5 → Nat`; a `for` loop over
the five slots is a structural recursion over the index list `slots = [0,1,2,3,4]`, its
`break` being the branch that does not recurse.  The two `int` counters are `Int`
(they never exceed 5, so no wrap-around is involved).  `std::vector` is `List`,
`emplace_back` appends at the end.
-/

/-! ## Data model -/

/-- Value of `UINT_MAX` for a 32-bit `unsigned int`: the marker stored in an empty slot. -/
def UINT_MAX : Nat := 4294967295

/-- The `struct PinState`: five palette indexes, every slot `UINT_MAX` by default. -/
structure PinState where
  pixelColorIndexes : Fin 5 → Nat := fun _ => UINT_MAX

/-- Index sequence visited by every loop over the five slots, in loop order. -/
def slots : List (Fin 5) := [0, 1, 2, 3, 4]

/-- The `struct PinGuessResult`: the black counter and the white counter. -/
structure PinGuessResult where
  correctColorPosition : Int := 0
  correctPositionOnly : Int := 0
deriving DecidableEq, Repr

/-- Inner loop `for (j = 0; j < 5; ++j)` of the scoring constructor, run for the guess
slot `i` over the remaining indexes; `white` is `correctPositionOnly` on entry, the
value returned is `correctPositionOnly` on exit.  The first branch is `++…; break`. -/
def PinGuessResult.innerLoop (guess actual : PinState) (i : Fin 5) (white : Int) :
    List (Fin 5) → Int
  | [] => white
  | j :: rest =>
    if i ≠ j ∧ guess.pixelColorIndexes i = actual.pixelColorIndexes j then white + 1
    else PinGuessResult.innerLoop guess actual i white rest

/-- Outer loop `for (i = 0; i < 5; ++i)` of the scoring constructor over the remaining
indexes, threading both counters.  The first branch is `++…; continue`. -/
def PinGuessResult.outerLoop (guess actual : PinState) :
    List (Fin 5) → PinGuessResult → PinGuessResult
  | [], r => r
  | i :: rest, r =>
    if guess.pixelColorIndexes i = actual.pixelColorIndexes i then
      PinGuessResult.outerLoop guess actual rest
        { r with correctColorPosition := r.correctColorPosition + 1 }
    else
      PinGuessResult.outerLoop guess actual rest
        { r with correctPositionOnly :=
            PinGuessResult.innerLoop guess actual i r.correctPositionOnly slots }

/-- The scoring constructor `PinGuessResult(PinState guess, PinState actual)`. -/
def PinGuessResult.PinGuessResult (guess actual : PinState) : PinGuessResult :=
  PinGuessResult.outerLoop guess actual slots
    { correctColorPosition := 0, correctPositionOnly := 0 }

/-- The `struct PinGuess`: a pin state with the result it scored. -/
structure PinGuess where
  state : PinState
  result : PinGuessResult

/-- The constructor `PinGuess(PinState guess, PinState actual)`. -/
def PinGuess.PinGuess (guess actual : PinState) : PinGuess :=
  { state := guess, result := PinGuessResult.PinGuessResult guess actual }

/-- The `struct Board`: the committed guesses, oldest first. -/
structure Board where
  guesses : List PinGuess := []

/-- Game-state fields of `class App`: the secret, the history and the buffer. -/
structure App where
  actualPins : PinState
  board : Board := {}
  guess : PinState := {}

/-! ## Session operations -/

/-- The element `guesses[guesses.size() - 1]`, when the vector is not empty. -/
def Board.back (b : Board) : Option PinGuess :=
  b.guesses[b.guesses.length - 1]?

/-- The method `App::IsGameOver`. -/
def App.IsGameOver (app : App) : Bool :=
  app.board.guesses.length != 0 &&
    (decide (app.board.guesses.length ≥ 10) ||
      match app.board.back with
      | some g => g.result.correctColorPosition == 5
      | none => false)

/-- Loop of `RevertOneGuessPin` over the remaining iterator positions: at the first
slot holding a value `>= 8`, the slot before it (if any) is set to `UINT_MAX`. -/
def App.revertLoop (guess : PinState) : List (Fin 5) → PinState
  | [] => guess
  | it :: rest =>
    if guess.pixelColorIndexes it ≥ 8 then
      if it ≠ 0 then
        { pixelColorIndexes := Function.update guess.pixelColorIndexes (it - 1) UINT_MAX }
      else guess
    else App.revertLoop guess rest

/-- The method `App::RevertOneGuessPin`. -/
def App.RevertOneGuessPin (app : App) : App :=
  if app.guess.pixelColorIndexes 4 < 8 then
    { app with guess :=
        { pixelColorIndexes := Function.update app.guess.pixelColorIndexes 4 UINT_MAX } }
  else
    { app with guess := App.revertLoop app.guess slots }

/-- The method `App::MakeAGuess`. -/
def App.MakeAGuess (app : App) : App :=
  { app with
    board := { guesses := app.board.guesses ++ [PinGuess.PinGuess app.guess app.actualPins] }
    guess := { pixelColorIndexes := fun _ => UINT_MAX } }

/-- The method `App::AddActual`. -/
def App.AddActual (app : App) : App :=
  if app.board.guesses.length == 10 &&
      (match app.board.back with
       | some g => decide (g.result.correctColorPosition < 5)
       | none => false) then
    { app with
      board :=
        { guesses := app.board.guesses ++ [PinGuess.PinGuess app.actualPins app.actualPins] } }
  else app

/-- Palette loop of `Update` over the remaining iterator positions: the first slot
holding a value `>= 8` receives `colorIndex`. -/
def App.fillLoop (colorIndex : Nat) (guess : PinState) : List (Fin 5) → PinState
  | [] => guess
  | it :: rest =>
    if guess.pixelColorIndexes it ≥ 8 then
      { pixelColorIndexes := Function.update guess.pixelColorIndexes it colorIndex }
    else App.fillLoop colorIndex guess rest

/-- The method `App::Update(int x, int y)`.  `colorIndex` is the truncating division
`(x - 20) / 70`; it is stored in an `unsigned int` slot only when `0 <= colorIndex < 8`. -/
def App.Update (app : App) (x y : Int) : App :=
  if app.IsGameOver then app
  else
    App.AddActual
      (if y > 920 then
        if x > 20 then
          if (x - 20).tdiv 70 ≥ 0 ∧ (x - 20).tdiv 70 < 8 then
            { app with guess := App.fillLoop ((x - 20).tdiv 70).toNat app.guess slots }
          else if app.guess.pixelColorIndexes 4 < 8 then app.MakeAGuess
          else app
        else if x < 20 then app.RevertOneGuessPin
        else app
      else app)

/-- Key symbol `XK_Escape` of the X11 headers. -/
def XK_Escape : Nat := 0xff1b

/-- Key symbol `XK_BackSpace` of the X11 headers. -/
def XK_BackSpace : Nat := 0xff08

/-- Key symbol `XK_KP_Enter` of the X11 headers. -/
def XK_KP_Enter : Nat := 0xff8d

/-- Key symbol `XK_ISO_Enter` of the X11 headers. -/
def XK_ISO_Enter : Nat := 0xfe34

/-- The method `App::KeyPressHandler(KeySym keySym, bool &done)`: the session and the
value of `done` after the call. -/
def App.KeyPressHandler (app : App) (keySym : Nat) (done : Bool) : App × Bool :=
  if keySym = XK_Escape then (app, true)
  else if !app.IsGameOver then
    (App.AddActual
      (if keySym = XK_BackSpace then app.RevertOneGuessPin
       else if keySym = XK_KP_Enter ∨ keySym = XK_ISO_Enter then app.MakeAGuess
       else app),
     done)
  else (app, done)

/-! ## Auxiliary predicate for the loop invariants -/

/-- Whether slot `i` of the guess earns a white pin in the scoring loops: the slot is
not an exact match and its colour stands in `actual` at some other index. -/
def whiteAt (guess actual : PinState) (i : Fin 5) : Bool :=
  decide (guess.pixelColorIndexes i ≠ actual.pixelColorIndexes i ∧
    ∃ j : Fin 5, j ≠ i ∧ guess.pixelColorIndexes i = actual.pixelColorIndexes j)

/-! ## Commit sequences -/

/-- One commit as both handlers run it: `MakeAGuess` followed by `AddActual`. -/
def App.commit (app : App) : App :=
  app.MakeAGuess.AddActual

/-- Successive commits.  Before each commit the buffer holds the next pin state of the
list, standing for whatever the edits since the previous commit left in it. -/
def App.commits (app : App) : List PinState → App
  | [] => app
  | g :: rest => App.commits (App.commit { app with guess := g }) rest

/-- A session right after construction with the given secret: empty history and a
buffer whose five slots hold `UINT_MAX`. -/
def App.fresh (secret : PinState) : App :=
  { actualPins := secret }

/-! ## Concrete sessions used to instantiate the theorems -/

/-- Sample secret `[0,1,2,3,4]`. -/
def sampleSecret : PinState := { pixelColorIndexes := ![0, 1, 2, 3, 4] }

/-- Sample guess `[1,1,1,1,1]`; against `sampleSecret` it scores one exact match. -/
def sampleGuess : PinState := { pixelColorIndexes := ![1, 1, 1, 1, 1] }

/-- Session in progress whose buffer already holds the secret. -/
def aboutToWin : App := { actualPins := sampleSecret, guess := sampleSecret }

/-- Session that is over: its single committed guess is the secret itself. -/
def wonSession : App :=
  { actualPins := sampleSecret
    board := { guesses := [PinGuess.PinGuess sampleSecret sampleSecret] } }

/-- Session in progress with two slots filled (`[0,1,_,_,_]`), reached from a fresh
session by two palette clicks. -/
def twoFilled : App :=
  ((App.fresh sampleSecret).Update 21 921).Update 91 921

/-- Session in progress with nine committed losing guesses and an empty buffer. -/
def nineGuesses : App :=
  { actualPins := sampleSecret
    board := { guesses := List.replicate 9 (PinGuess.PinGuess sampleGuess sampleSecret) } }

/-- Buffer in which the first `k` slots hold the colours `c` and the other slots keep
their content `g0`: the shape of the buffer after `k` palette clicks. -/
def filledTo (c g0 : Fin 5 → Nat) (k : Nat) : PinState :=
  { pixelColorIndexes := fun i => if i.val < k then c i else g0 i }

/-! ## Classic peg counting, for comparison with the scoring constructor -/

/-- Number of slots of the pin state `s` that hold the colour `c`. -/
def occurrences (s : PinState) (c : Nat) : Nat :=
  slots.countP (fun i => decide (s.pixelColorIndexes i = c))

/-- Classic Mastermind white-peg count, as the comparison count is worded: the sum over
the 8 palette colours `c` of `min (occurrences of c in guess) (occurrences of c in secret)`,
minus the number of exact matches reported by the scoring constructor. -/
def classicWhitePegs (guess actual : PinState) : Int :=
  (((Finset.range 8).sum fun c => min (occurrences guess c) (occurrences actual c) : Nat) : Int)
    - (PinGuessResult.PinGuessResult guess actual).correctColorPosition

/-! # Theorems -/

/-! ## Scoring: loop lemmas -/

theorem mem_slots (i : Fin 5) : i ∈ slots := by
  fin_cases i <;> simp [slots]

theorem innerLoop_eq (guess actual : PinState) (i : Fin 5) (white : Int) (js : List (Fin 5)) :
    PinGuessResult.innerLoop guess actual i white js =
      white + (if ∃ j ∈ js, i ≠ j ∧ guess.pixelColorIndexes i = actual.pixelColorIndexes j
        then 1 else 0) := by
  induction js with
  | nil => simp [PinGuessResult.innerLoop]
  | cons j rest ih =>
    unfold PinGuessResult.innerLoop
    by_cases h : i ≠ j ∧ guess.pixelColorIndexes i = actual.pixelColorIndexes j
    · have hex : ∃ k ∈ j :: rest, i ≠ k ∧
          guess.pixelColorIndexes i = actual.pixelColorIndexes k := ⟨j, by simp, h⟩
      rw [if_pos h, if_pos hex]
    · rw [if_neg h, ih]
      congr 1
      by_cases hr : ∃ k ∈ rest, i ≠ k ∧ guess.pixelColorIndexes i = actual.pixelColorIndexes k
      · have hex : ∃ k ∈ j :: rest, i ≠ k ∧
            guess.pixelColorIndexes i = actual.pixelColorIndexes k := by
          obtain ⟨k, hk, hk2⟩ := hr
          exact ⟨k, List.mem_cons_of_mem _ hk, hk2⟩
        rw [if_pos hr, if_pos hex]
      · have hex : ¬ ∃ k ∈ j :: rest, i ≠ k ∧
            guess.pixelColorIndexes i = actual.pixelColorIndexes k := by
          rintro ⟨k, hk, hk2⟩
          rcases List.mem_cons.mp hk with rfl | hk
          · exact h hk2
          · exact hr ⟨k, hk, hk2⟩
        rw [if_neg hr, if_neg hex]

theorem innerLoop_slots (guess actual : PinState) (i : Fin 5) (white : Int)
    (hne : guess.pixelColorIndexes i ≠ actual.pixelColorIndexes i) :
    PinGuessResult.innerLoop guess actual i white slots =
      white + (if whiteAt guess actual i = true then 1 else 0) := by
  rw [innerLoop_eq]
  congr 1
  have : (∃ j ∈ slots, i ≠ j ∧ guess.pixelColorIndexes i = actual.pixelColorIndexes j) ↔
      whiteAt guess actual i = true := by
    unfold whiteAt
    rw [decide_eq_true_eq]
    constructor
    · rintro ⟨j, -, hj, he⟩
      exact ⟨hne, j, fun h => hj h.symm, he⟩
    · rintro ⟨-, j, hj, he⟩
      exact ⟨j, mem_slots j, fun h => hj h.symm, he⟩
  simp only [this]

theorem outerLoop_eq (guess actual : PinState) (l : List (Fin 5)) (r : PinGuessResult) :
    PinGuessResult.outerLoop guess actual l r =
      { correctColorPosition := r.correctColorPosition +
          (l.countP (fun i => decide (guess.pixelColorIndexes i = actual.pixelColorIndexes i)) : Nat)
        correctPositionOnly := r.correctPositionOnly +
          (l.countP (whiteAt guess actual) : Nat) } := by
  induction l generalizing r with
  | nil => simp [PinGuessResult.outerLoop]
  | cons i rest ih =>
    unfold PinGuessResult.outerLoop
    by_cases h : guess.pixelColorIndexes i = actual.pixelColorIndexes i
    · have hw : whiteAt guess actual i = false := by simp [whiteAt, h]
      rw [if_pos h, ih]
      simp [List.countP_cons, h, hw]
      ring
    · rw [if_neg h, ih, innerLoop_slots guess actual i _ h]
      by_cases hw : whiteAt guess actual i = true
      · simp [List.countP_cons, h, hw]; ring
      · simp [List.countP_cons, h, hw]

theorem card_filter_slots (p : Fin 5 → Prop) [DecidablePred p] :
    (Finset.univ.filter p).card = slots.countP (fun i => decide (p i)) := by
  rw [Finset.card_filter, Fin.sum_univ_five]
  simp only [slots, List.countP_cons, List.countP_nil, decide_eq_true_eq]
  omega

theorem score_eq (guess actual : PinState) :
    PinGuessResult.PinGuessResult guess actual =
      { correctColorPosition := ((Finset.univ.filter (fun i : Fin 5 =>
          guess.pixelColorIndexes i = actual.pixelColorIndexes i)).card : Nat)
        correctPositionOnly := ((Finset.univ.filter (fun i : Fin 5 => whiteAt guess actual i = true)).card : Nat) } := by
  unfold PinGuessResult.PinGuessResult
  rw [outerLoop_eq, card_filter_slots, card_filter_slots]
  simp

theorem countP_disjoint_le (p q : Fin 5 → Bool) (h : ∀ i, p i = true → q i = false)
    (l : List (Fin 5)) : l.countP p + l.countP q ≤ l.length := by
  induction l with
  | nil => simp
  | cons i rest ih =>
    rw [List.countP_cons, List.countP_cons, List.length_cons]
    cases hp : p i
    · cases hq : q i <;> simp <;> omega
    · rw [h i hp]
      simp
      omega

theorem score_bounds (guess actual : PinState) :
    0 ≤ (PinGuessResult.PinGuessResult guess actual).correctColorPosition ∧
    0 ≤ (PinGuessResult.PinGuessResult guess actual).correctPositionOnly ∧
    (PinGuessResult.PinGuessResult guess actual).correctColorPosition +
      (PinGuessResult.PinGuessResult guess actual).correctPositionOnly ≤ 5 := by
  rw [score_eq, card_filter_slots, card_filter_slots]
  have hsum := countP_disjoint_le
    (fun i => decide (guess.pixelColorIndexes i = actual.pixelColorIndexes i))
    (fun i => decide (whiteAt guess actual i = true))
    (by
      intro i h
      rw [decide_eq_true_eq] at h
      simp [whiteAt, h])
    slots
  have hlen : slots.length = 5 := rfl
  rw [hlen] at hsum
  refine ⟨by positivity, by positivity, ?_⟩
  show ((_ : Nat) : Int) + ((_ : Nat) : Int) ≤ 5
  exact_mod_cast hsum

theorem score_self (s : PinState) :
    PinGuessResult.PinGuessResult s s = { correctColorPosition := 5, correctPositionOnly := 0 } := by
  simp [PinGuessResult.PinGuessResult, PinGuessResult.outerLoop, slots]

/-! ## Scoring: the claims -/

/-- C5: the scoring constructor returns, as `correctColorPosition`, the number of
positions where guess and secret agree and, as `correctPositionOnly`, the number of
positions `i` that are not exact and whose guess colour stands in the secret at some
position `j ≠ i` (secret slots are never consumed); for pairwise distinct `A B C D` the
guess `[A,A,B,C,D]` against the secret `[A,B,B,C,D]` scores `(4, 1)`, not `(4, 0)`. -/
theorem C5_scoring_counts (guess actual : PinState) (A B C D : Nat)
    (hdistinct : [A, B, C, D].Nodup) :
    (PinGuessResult.PinGuessResult guess actual).correctColorPosition =
      ((Finset.univ.filter (fun i : Fin 5 =>
        guess.pixelColorIndexes i = actual.pixelColorIndexes i)).card : Int) ∧
    (PinGuessResult.PinGuessResult guess actual).correctPositionOnly =
      ((Finset.univ.filter (fun i : Fin 5 =>
        guess.pixelColorIndexes i ≠ actual.pixelColorIndexes i ∧
          ∃ j : Fin 5, j ≠ i ∧
            guess.pixelColorIndexes i = actual.pixelColorIndexes j)).card : Int) ∧
    PinGuessResult.PinGuessResult { pixelColorIndexes := ![A, A, B, C, D] }
        { pixelColorIndexes := ![A, B, B, C, D] } =
      { correctColorPosition := 4, correctPositionOnly := 1 } ∧
    PinGuessResult.PinGuessResult { pixelColorIndexes := ![A, A, B, C, D] }
        { pixelColorIndexes := ![A, B, B, C, D] } ≠
      { correctColorPosition := 4, correctPositionOnly := 0 } := by
  have hAB : A ≠ B := by
    intro h
    simp [h] at hdistinct
  have hex : PinGuessResult.PinGuessResult { pixelColorIndexes := ![A, A, B, C, D] }
        { pixelColorIndexes := ![A, B, B, C, D] } =
      { correctColorPosition := 4, correctPositionOnly := 1 } := by
    simp [PinGuessResult.PinGuessResult, PinGuessResult.outerLoop, PinGuessResult.innerLoop,
      slots, hAB]
  refine ⟨?_, ?_, hex, ?_⟩
  · rw [score_eq]
  · rw [score_eq]
    simp [whiteAt]
  · rw [hex]
    decide

/-- C5 at a concrete input: colours `0,1,2,3` and the pair `[0,0,1,2,3]` / `[0,1,1,2,3]`. -/
theorem C5_scoring_counts_witness :
    [0, 1, 2, 3].Nodup ∧
    PinGuessResult.PinGuessResult { pixelColorIndexes := ![0, 0, 1, 2, 3] }
        { pixelColorIndexes := ![0, 1, 1, 2, 3] } =
      { correctColorPosition := 4, correctPositionOnly := 1 } :=
  ⟨by decide,
    (C5_scoring_counts { pixelColorIndexes := ![7, 7, 7, 7, 7] }
      { pixelColorIndexes := ![0, 1, 2, 3, 4] } 0 1 2 3 (by decide)).2.2.1⟩

/-- C6 as stated fails: for the guess `[0,0,1,2,3]` and the secret `[0,1,1,2,3]` the only
non-exact position is 1, so no non-exact position `j ≠ 1` exists and the stated count is
0, while the code counts one white pin (slot 1 matches the exact slot 0 of the secret). -/
theorem C6_counterexample :
    (PinGuessResult.PinGuessResult { pixelColorIndexes := ![0, 0, 1, 2, 3] }
        { pixelColorIndexes := ![0, 1, 1, 2, 3] }).correctPositionOnly = 1 ∧
    (Finset.univ.filter (fun i : Fin 5 =>
        (![0, 0, 1, 2, 3] : Fin 5 → Nat) i ≠ (![0, 1, 1, 2, 3] : Fin 5 → Nat) i ∧
          ∃ j : Fin 5, j ≠ i ∧
            (![0, 0, 1, 2, 3] : Fin 5 → Nat) j ≠ (![0, 1, 1, 2, 3] : Fin 5 → Nat) j ∧
            (![0, 0, 1, 2, 3] : Fin 5 → Nat) i = (![0, 1, 1, 2, 3] : Fin 5 → Nat) j)).card = 0 ∧
    (PinGuessResult.PinGuessResult { pixelColorIndexes := ![0, 0, 1, 2, 3] }
        { pixelColorIndexes := ![0, 1, 1, 2, 3] }).correctPositionOnly ≠
      ((Finset.univ.filter (fun i : Fin 5 =>
        (![0, 0, 1, 2, 3] : Fin 5 → Nat) i ≠ (![0, 1, 1, 2, 3] : Fin 5 → Nat) i ∧
          ∃ j : Fin 5, j ≠ i ∧
            (![0, 0, 1, 2, 3] : Fin 5 → Nat) j ≠ (![0, 1, 1, 2, 3] : Fin 5 → Nat) j ∧
            (![0, 0, 1, 2, 3] : Fin 5 → Nat) i =
              (![0, 1, 1, 2, 3] : Fin 5 → Nat) j)).card : Int) := by
  decide

/-- C6 amended: an exact match is consumed on the guess side only.  The white counter
equals the number of non-exact positions `i` for which some position `j ≠ i`, exact or
not, has `guess[i] == secret[j]`; it is therefore never below the number of non-exact
positions matched by a non-exact position of the secret. -/
theorem C6_white_ignores_exact_on_secret_side (guess actual : PinState) :
    (PinGuessResult.PinGuessResult guess actual).correctPositionOnly =
      ((Finset.univ.filter (fun i : Fin 5 =>
        guess.pixelColorIndexes i ≠ actual.pixelColorIndexes i ∧
          ∃ j : Fin 5, j ≠ i ∧
            (guess.pixelColorIndexes j = actual.pixelColorIndexes j ∨
              guess.pixelColorIndexes j ≠ actual.pixelColorIndexes j) ∧
            guess.pixelColorIndexes i = actual.pixelColorIndexes j)).card : Int) ∧
    ((Finset.univ.filter (fun i : Fin 5 =>
        guess.pixelColorIndexes i ≠ actual.pixelColorIndexes i ∧
          ∃ j : Fin 5, j ≠ i ∧ guess.pixelColorIndexes j ≠ actual.pixelColorIndexes j ∧
            guess.pixelColorIndexes i = actual.pixelColorIndexes j)).card : Int) ≤
      (PinGuessResult.PinGuessResult guess actual).correctPositionOnly := by
  have hset : (Finset.univ.filter (fun i : Fin 5 =>
        guess.pixelColorIndexes i ≠ actual.pixelColorIndexes i ∧
          ∃ j : Fin 5, j ≠ i ∧
            (guess.pixelColorIndexes j = actual.pixelColorIndexes j ∨
              guess.pixelColorIndexes j ≠ actual.pixelColorIndexes j) ∧
            guess.pixelColorIndexes i = actual.pixelColorIndexes j)) =
      Finset.univ.filter (fun i : Fin 5 => whiteAt guess actual i = true) := by
    apply Finset.filter_congr
    intro i _
    unfold whiteAt
    rw [decide_eq_true_eq]
    constructor
    · rintro ⟨h, j, hj, -, he⟩
      exact ⟨h, j, hj, he⟩
    · rintro ⟨h, j, hj, he⟩
      exact ⟨h, j, hj, em _, he⟩
  constructor
  · rw [hset, score_eq]
  · rw [score_eq]
    simp only
    norm_cast
    apply Finset.card_le_card
    intro i
    simp only [Finset.mem_filter, Finset.mem_univ, true_and]
    rintro ⟨h, j, hj, -, he⟩
    unfold whiteAt
    rw [decide_eq_true_eq]
    exact ⟨h, j, hj, he⟩

/-- C7: scoring a pin state against itself yields `(5, 0)`; this holds for every pin
state, in particular for every fully populated one (five palette indexes `0..7`). -/
theorem C7_score_self (s : PinState) :
    PinGuessResult.PinGuessResult s s =
      { correctColorPosition := 5, correctPositionOnly := 0 } :=
  score_self s

/-- C8: for every guess and secret both counters of the scoring constructor lie in
`0..5` and their sum is at most 5. -/
theorem C8_score_bounds (guess actual : PinState) :
    (PinGuessResult.PinGuessResult guess actual).correctColorPosition +
      (PinGuessResult.PinGuessResult guess actual).correctPositionOnly ≤ 5 ∧
    0 ≤ (PinGuessResult.PinGuessResult guess actual).correctColorPosition ∧
    (PinGuessResult.PinGuessResult guess actual).correctColorPosition ≤ 5 ∧
    0 ≤ (PinGuessResult.PinGuessResult guess actual).correctPositionOnly ∧
    (PinGuessResult.PinGuessResult guess actual).correctPositionOnly ≤ 5 := by
  have h := score_bounds guess actual
  omega

/-! ## Session: helper lemmas -/

theorem back_append (l : List PinGuess) (g : PinGuess) :
    Board.back { guesses := l ++ [g] } = some g := by
  simp [Board.back]

theorem length_lt_of_not_over (app : App) (h : app.IsGameOver = false) :
    app.board.guesses.length < 10 := by
  by_contra hlen
  have h10 : 10 ≤ app.board.guesses.length := by omega
  have h0 : app.board.guesses.length ≠ 0 := by omega
  simp [App.IsGameOver, h10, h0] at h

theorem AddActual_of_length_ne (app : App) (h : app.board.guesses.length ≠ 10) :
    app.AddActual = app := by
  simp [App.AddActual, h]

theorem IsGameOver_congr (a b : App) (h : a.board = b.board) :
    a.IsGameOver = b.IsGameOver := by
  simp [App.IsGameOver, h]

theorem commit_short (app : App) (h : app.board.guesses.length + 1 ≠ 10) :
    app.commit = app.MakeAGuess := by
  unfold App.commit
  apply AddActual_of_length_ne
  simpa [App.MakeAGuess] using h

theorem commit_tenth (app : App) (h : app.board.guesses.length = 9)
    (hlose : (PinGuessResult.PinGuessResult app.guess app.actualPins).correctColorPosition ≠ 5) :
    (app.commit).board.guesses =
      app.board.guesses ++ [PinGuess.PinGuess app.guess app.actualPins] ++
        [PinGuess.PinGuess app.actualPins app.actualPins] := by
  have hb := (score_bounds app.guess app.actualPins)
  have hlt : (PinGuessResult.PinGuessResult app.guess app.actualPins).correctColorPosition < 5 := by
    omega
  simp [App.commit, App.AddActual, App.MakeAGuess, back_append, h, PinGuess.PinGuess, hlt]

theorem commit_actualPins (app : App) : (app.commit).actualPins = app.actualPins := by
  unfold App.commit App.AddActual
  split <;> simp [App.MakeAGuess]

theorem over_of_length_ge (app : App) (h : 10 ≤ app.board.guesses.length) :
    app.IsGameOver = true := by
  have h0 : app.board.guesses.length ≠ 0 := by omega
  simp [App.IsGameOver, h, h0]

theorem commits_reveal (secret : PinState) (gs : List PinState) :
    ∀ app : App, app.actualPins = secret → app.board.guesses.length + gs.length = 10 →
      gs ≠ [] →
      (∀ g ∈ gs, (PinGuessResult.PinGuessResult g secret).correctColorPosition ≠ 5) →
      (app.commits gs).board.guesses.length = 11 ∧
      (app.commits gs).board.guesses[10]? = some (PinGuess.PinGuess secret secret) ∧
      (app.commits gs).IsGameOver = true := by
  induction gs with
  | nil => intro app _ _ hne; exact absurd rfl hne
  | cons g rest ih =>
    intro app hs hlen _ hnone
    cases rest with
    | nil =>
      have h9 : app.board.guesses.length = 9 := by simpa using hlen
      have hg : (PinGuessResult.PinGuessResult g secret).correctColorPosition ≠ 5 :=
        hnone g (by simp)
      have hc := commit_tenth { app with guess := g } h9 (by simpa [hs] using hg)
      simp only [App.commits]
      have hl : (App.commit { app with guess := g }).board.guesses.length = 11 := by
        rw [hc]; simp [h9]
      refine ⟨hl, ?_, over_of_length_ge _ (by omega)⟩
      rw [hc, List.getElem?_append_right (by simp [h9])]
      simp [h9, hs]
    | cons g2 rest2 =>
      have hshort : app.board.guesses.length + 1 ≠ 10 := by
        simp only [List.length_cons] at hlen
        omega
      have hc := commit_short { app with guess := g } hshort
      simp only [App.commits] at ih ⊢
      rw [hc]
      apply ih
      · simpa [App.MakeAGuess] using hs
      · simp only [App.MakeAGuess, List.length_append, List.length_cons, List.length_nil] at hlen ⊢
        omega
      · simp
      · intro g3 hg3
        exact hnone g3 (List.mem_cons_of_mem _ hg3)

/-! ## Session: the claims -/

/-- C1: from a fresh session, ten commits (`MakeAGuess` then `AddActual`) none of which
scores 5 exact matches leave a history of exactly 11 entries whose 11th entry has the
secret as pins and `(5, 0)` as result, and `IsGameOver` is true. -/
theorem C1_ten_losing_commits_reveal (secret : PinState) (gs : List PinState)
    (hten : gs.length = 10)
    (hlose : ∀ g ∈ gs, (PinGuessResult.PinGuessResult g secret).correctColorPosition ≠ 5) :
    ((App.fresh secret).commits gs).board.guesses.length = 11 ∧
    (∃ last : PinGuess, ((App.fresh secret).commits gs).board.guesses[10]? = some last ∧
      last.state = secret ∧
      last.result = { correctColorPosition := 5, correctPositionOnly := 0 }) ∧
    ((App.fresh secret).commits gs).IsGameOver = true := by
  have hne : gs ≠ [] := by
    intro h
    rw [h] at hten
    simp at hten
  obtain ⟨h1, h2, h3⟩ := commits_reveal secret gs (App.fresh secret) rfl
    (by simp [App.fresh, hten]) hne hlose
  exact ⟨h1, ⟨PinGuess.PinGuess secret secret, h2, rfl, score_self secret⟩, h3⟩

/-- C1 at a concrete input: ten times the guess `[1,1,1,1,1]` against `[0,1,2,3,4]`. -/
theorem C1_ten_losing_commits_reveal_witness :
    (List.replicate 10 sampleGuess).length = 10 ∧
    (PinGuessResult.PinGuessResult sampleGuess sampleSecret).correctColorPosition = 1 ∧
    ((App.fresh sampleSecret).commits (List.replicate 10 sampleGuess)).board.guesses.length
      = 11 ∧
    ((App.fresh sampleSecret).commits (List.replicate 10 sampleGuess)).IsGameOver = true :=
  ⟨by decide, by decide,
    (C1_ten_losing_commits_reveal sampleSecret (List.replicate 10 sampleGuess) (by decide)
      (by decide)).1,
    (C1_ten_losing_commits_reveal sampleSecret (List.replicate 10 sampleGuess) (by decide)
      (by decide)).2.2⟩

/-- C2: in a session that is not over and holds `n ≤ 9` guesses, committing a full
buffer that scores 5 exact matches leaves exactly `n + 1` entries (no reveal guess) and
makes `IsGameOver` true. -/
theorem C2_winning_commit_ends_game (app : App) (_hnot : app.IsGameOver = false)
    (_hn : app.board.guesses.length ≤ 9)
    (_hfull : ∀ i : Fin 5, app.guess.pixelColorIndexes i < 8)
    (hwin : (PinGuessResult.PinGuessResult app.guess app.actualPins).correctColorPosition = 5) :
    (app.MakeAGuess.AddActual).board.guesses.length = app.board.guesses.length + 1 ∧
    (app.MakeAGuess.AddActual).board.guesses =
      app.board.guesses ++ [PinGuess.PinGuess app.guess app.actualPins] ∧
    (app.MakeAGuess.AddActual).IsGameOver = true := by
  have hadd : app.MakeAGuess.AddActual = app.MakeAGuess := by
    simp [App.AddActual, App.MakeAGuess, back_append, PinGuess.PinGuess, hwin]
  rw [hadd]
  refine ⟨by simp [App.MakeAGuess], by simp [App.MakeAGuess], ?_⟩
  simp [App.IsGameOver, App.MakeAGuess, back_append, PinGuess.PinGuess, hwin]

/-- C2 at a concrete input: the first guess of a session is the secret. -/
theorem C2_winning_commit_ends_game_witness :
    aboutToWin.IsGameOver = false ∧
    (PinGuessResult.PinGuessResult aboutToWin.guess aboutToWin.actualPins).correctColorPosition
      = 5 ∧
    (aboutToWin.MakeAGuess.AddActual).board.guesses.length = 0 + 1 ∧
    (aboutToWin.MakeAGuess.AddActual).IsGameOver = true :=
  ⟨by decide, by decide,
    (C2_winning_commit_ends_game aboutToWin (by decide) (by decide) (by decide)
      (by decide)).1,
    (C2_winning_commit_ends_game aboutToWin (by decide) (by decide) (by decide)
      (by decide)).2.2⟩

/-- C3: when `IsGameOver` is true, a click through `Update` at any coordinates and any
key through `KeyPressHandler` (BackSpace and both Enter keys included) leave the history
and the buffer unchanged. -/
theorem C3_over_is_frozen (app : App) (hover : app.IsGameOver = true) :
    (∀ x y : Int, (app.Update x y).board = app.board ∧ (app.Update x y).guess = app.guess) ∧
    (∀ (keySym : Nat) (done : Bool),
      (app.KeyPressHandler keySym done).1.board = app.board ∧
      (app.KeyPressHandler keySym done).1.guess = app.guess) := by
  constructor
  · intro x y
    simp [App.Update, hover]
  · intro keySym done
    unfold App.KeyPressHandler
    split
    · exact ⟨rfl, rfl⟩
    · simp [hover]

/-- C3 at a concrete input: a palette click and the BackSpace key on a won session. -/
theorem C3_over_is_frozen_witness :
    wonSession.IsGameOver = true ∧
    (wonSession.Update 100 950).guess = wonSession.guess ∧
    (wonSession.KeyPressHandler XK_BackSpace false).1.board = wonSession.board :=
  ⟨by decide, ((C3_over_is_frozen wonSession (by decide)).1 100 950).2,
    ((C3_over_is_frozen wonSession (by decide)).2 XK_BackSpace false).1⟩

/-- Confirm click on a buffer whose last slot is empty: `Update` changes nothing (the
guard `pixelColorIndexes[4] < 8` keeps `MakeAGuess` from running). -/
theorem Update_confirm_incomplete_noop (app : App) (hnot : app.IsGameOver = false)
    (hlast : app.guess.pixelColorIndexes 4 ≥ 8) (x y : Int) (hy : y > 920) (hx : x > 20)
    (hconfirm : (x - 20).tdiv 70 ≥ 8) : app.Update x y = app := by
  have hlen := length_lt_of_not_over app hnot
  have h1 : ¬ ((x - 20).tdiv 70 < 8) := by omega
  have h2 : ¬ (app.guess.pixelColorIndexes 4 < 8) := by omega
  simp only [App.Update, hnot, hy, hx, h1, h2, and_false, if_true, if_false, Bool.false_eq_true]
  exact AddActual_of_length_ne app (by omega)

/-- C4, the Enter key: on the session `twoFilled` (not over, buffer `[0,1,_,_,_]`, empty
history) the key `XK_KP_Enter` appends a guess whose last three pins are `UINT_MAX`,
scored `(2, 0)`, and clears the buffer: `KeyPressHandler` calls `MakeAGuess` without the
guard that `Update` applies. -/
theorem C4_enter_commits_incomplete_buffer :
    twoFilled.IsGameOver = false ∧
    slots.map twoFilled.guess.pixelColorIndexes = [0, 1, UINT_MAX, UINT_MAX, UINT_MAX] ∧
    twoFilled.board.guesses.length = 0 ∧
    (twoFilled.KeyPressHandler XK_KP_Enter false).1.board.guesses.map
        (fun g => (slots.map g.state.pixelColorIndexes, g.result)) =
      [([0, 1, UINT_MAX, UINT_MAX, UINT_MAX],
        { correctColorPosition := 2, correctPositionOnly := 0 })] ∧
    slots.map (twoFilled.KeyPressHandler XK_KP_Enter false).1.guess.pixelColorIndexes =
      [UINT_MAX, UINT_MAX, UINT_MAX, UINT_MAX, UINT_MAX] := by
  decide

/-! ## Buffer editing: helper lemmas -/

theorem fillLoop_first_empty (colorIndex : Nat) (guess : PinState) (k : Fin 5)
    (hfilled : ∀ i : Fin 5, i.val < k.val → guess.pixelColorIndexes i < 8)
    (hempty : guess.pixelColorIndexes k ≥ 8) :
    App.fillLoop colorIndex guess slots =
      { pixelColorIndexes := Function.update guess.pixelColorIndexes k colorIndex } := by
  have h0 : 0 < k.val → ¬ guess.pixelColorIndexes 0 ≥ 8 := fun h => Nat.not_le.mpr (hfilled 0 h)
  have h1 : 1 < k.val → ¬ guess.pixelColorIndexes 1 ≥ 8 := fun h => Nat.not_le.mpr (hfilled 1 h)
  have h2 : 2 < k.val → ¬ guess.pixelColorIndexes 2 ≥ 8 := fun h => Nat.not_le.mpr (hfilled 2 h)
  have h3 : 3 < k.val → ¬ guess.pixelColorIndexes 3 ≥ 8 := fun h => Nat.not_le.mpr (hfilled 3 h)
  fin_cases k
  · simp only [App.fillLoop, slots]
    rw [if_pos (show guess.pixelColorIndexes 0 ≥ 8 from hempty)]
    rfl
  · simp only [App.fillLoop, slots]
    rw [if_neg (h0 (by decide)), if_pos (show guess.pixelColorIndexes 1 ≥ 8 from hempty)]
    rfl
  · simp only [App.fillLoop, slots]
    rw [if_neg (h0 (by decide)), if_neg (h1 (by decide)),
      if_pos (show guess.pixelColorIndexes 2 ≥ 8 from hempty)]
    rfl
  · simp only [App.fillLoop, slots]
    rw [if_neg (h0 (by decide)), if_neg (h1 (by decide)), if_neg (h2 (by decide)),
      if_pos (show guess.pixelColorIndexes 3 ≥ 8 from hempty)]
    rfl
  · simp only [App.fillLoop, slots]
    rw [if_neg (h0 (by decide)), if_neg (h1 (by decide)), if_neg (h2 (by decide)),
      if_neg (h3 (by decide)), if_pos (show guess.pixelColorIndexes 4 ≥ 8 from hempty)]
    rfl

theorem fill_step (c g0 : Fin 5 → Nat) (hc : ∀ i, c i < 8) (hg0 : ∀ i, g0 i ≥ 8) (k : Fin 5) :
    App.fillLoop (c k) (filledTo c g0 k.val) slots = filledTo c g0 (k.val + 1) := by
  rw [fillLoop_first_empty (c k) _ k]
  · unfold filledTo
    congr 1
    funext i
    by_cases hik : i = k
    · subst hik
      simp
    · have hne : i.val ≠ k.val := fun h => hik (Fin.ext h)
      rw [Function.update_noteq hik]
      by_cases hlt : i.val < k.val
      · have : i.val < k.val + 1 := by omega
        simp [hlt, this]
      · have : ¬ i.val < k.val + 1 := by omega
        simp [hlt, this]
  · intro i hi
    show (if i.val < k.val then c i else g0 i) < 8
    rw [if_pos hi]
    exact hc i
  · show (if k.val < k.val then c k else g0 k) ≥ 8
    rw [if_neg (lt_irrefl _)]
    exact hg0 k

theorem Update_palette (app : App) (hnot : app.IsGameOver = false) (x y : Int)
    (hy : y > 920) (hx : x > 20) (colorIndex : Nat) (hlt : colorIndex < 8)
    (hdiv : (x - 20).tdiv 70 = (colorIndex : Int)) :
    app.Update x y = { app with guess := App.fillLoop colorIndex app.guess slots } := by
  have hlen := length_lt_of_not_over app hnot
  have h1 : (x - 20).tdiv 70 < 8 := by omega
  have h0 : (x - 20).tdiv 70 ≥ 0 := by omega
  simp only [App.Update, hnot, hy, hx, h1, h0, and_self, if_true, if_false, Bool.false_eq_true]
  rw [hdiv, Int.toNat_ofNat]
  exact AddActual_of_length_ne _ (by simp only; omega)

theorem Update_palette_step (app : App) (hnot : app.IsGameOver = false) (x y : Int)
    (hy : y > 920) (hx : x > 20) (c g0 : Fin 5 → Nat) (hc : ∀ i, c i < 8)
    (hg0 : ∀ i, g0 i ≥ 8) (k : Fin 5) (hdiv : (x - 20).tdiv 70 = (c k : Int))
    (hguess : app.guess = filledTo c g0 k.val) :
    app.Update x y = { app with guess := filledTo c g0 (k.val + 1) } := by
  rw [Update_palette app hnot x y hy hx (c k) (hc k) hdiv, hguess, fill_step c g0 hc hg0 k]

theorem Update_confirm (app : App) (hnot : app.IsGameOver = false) (x y : Int)
    (hy : y > 920) (hx : x > 20) (hconfirm : (x - 20).tdiv 70 ≥ 8)
    (hlast : app.guess.pixelColorIndexes 4 < 8) :
    app.Update x y = app.MakeAGuess.AddActual := by
  have h1 : ¬ ((x - 20).tdiv 70 < 8) := by omega
  simp only [App.Update, hnot, hy, hx, h1, hlast, and_false, if_true, if_false,
    Bool.false_eq_true]

theorem five_clicks (app : App) (hnot : app.IsGameOver = false)
    (hempty : ∀ i : Fin 5, app.guess.pixelColorIndexes i ≥ 8)
    (c : Fin 5 → Nat) (hc : ∀ i, c i < 8) (xs ys : Fin 5 → Int)
    (hpalette : ∀ k : Fin 5, ys k > 920 ∧ xs k > 20 ∧ (xs k - 20).tdiv 70 = (c k : Int)) :
    ((((app.Update (xs 0) (ys 0)).Update (xs 1) (ys 1)).Update (xs 2) (ys 2)).Update
        (xs 3) (ys 3)).Update (xs 4) (ys 4) =
      { app with guess := { pixelColorIndexes := c } } := by
  have step : ∀ (k : Fin 5) (a : App), a.board = app.board →
      a.guess = filledTo c app.guess.pixelColorIndexes k.val →
      a.Update (xs k) (ys k) =
        { a with guess := filledTo c app.guess.pixelColorIndexes (k.val + 1) } := by
    intro k a hb hg
    exact Update_palette_step a ((IsGameOver_congr a app hb).trans hnot) (xs k) (ys k)
      (hpalette k).1 (hpalette k).2.1 c app.guess.pixelColorIndexes hc hempty k
      (hpalette k).2.2 hg
  have hg : app.guess = filledTo c app.guess.pixelColorIndexes (0 : Fin 5).val := by
    simp [filledTo]
  have e0 : app.Update (xs 0) (ys 0) =
      { app with guess := filledTo c app.guess.pixelColorIndexes 1 } := step 0 app rfl hg
  have e1 : ({ app with guess := filledTo c app.guess.pixelColorIndexes 1 } : App).Update
      (xs 1) (ys 1) = { app with guess := filledTo c app.guess.pixelColorIndexes 2 } :=
    step 1 _ rfl rfl
  have e2 : ({ app with guess := filledTo c app.guess.pixelColorIndexes 2 } : App).Update
      (xs 2) (ys 2) = { app with guess := filledTo c app.guess.pixelColorIndexes 3 } :=
    step 2 _ rfl rfl
  have e3 : ({ app with guess := filledTo c app.guess.pixelColorIndexes 3 } : App).Update
      (xs 3) (ys 3) = { app with guess := filledTo c app.guess.pixelColorIndexes 4 } :=
    step 3 _ rfl rfl
  have e4 : ({ app with guess := filledTo c app.guess.pixelColorIndexes 4 } : App).Update
      (xs 4) (ys 4) = { app with guess := filledTo c app.guess.pixelColorIndexes 5 } :=
    step 4 _ rfl rfl
  rw [e0, e1, e2, e3, e4]
  simp only [filledTo]
  congr 2
  funext i
  have := i.isLt
  simp

theorem revert_empty (app : App) (hempty : ∀ i : Fin 5, app.guess.pixelColorIndexes i ≥ 8) :
    app.RevertOneGuessPin = app := by
  have h4 : ¬ app.guess.pixelColorIndexes 4 < 8 := Nat.not_lt.mpr (hempty 4)
  simp only [App.RevertOneGuessPin, App.revertLoop, slots, h4, if_false]
  rw [if_pos (hempty 0)]
  simp

theorem revert_iterate_empty (app : App)
    (hempty : ∀ i : Fin 5, app.guess.pixelColorIndexes i ≥ 8) (N : Nat) :
    App.RevertOneGuessPin^[N] app = app := by
  induction N with
  | zero => rfl
  | succ n ih => rw [Function.iterate_succ_apply, revert_empty app hempty, ih]

theorem revert_gapfree (app : App) (k : Nat) (hk1 : 1 ≤ k) (hk5 : k ≤ 5)
    (hfilled : ∀ i : Fin 5, i.val < k → app.guess.pixelColorIndexes i < 8)
    (hempty : ∀ i : Fin 5, k ≤ i.val → app.guess.pixelColorIndexes i ≥ 8) :
    ∀ hlt : k - 1 < 5, app.RevertOneGuessPin =
      { app with guess :=
          { pixelColorIndexes :=
              Function.update app.guess.pixelColorIndexes ⟨k - 1, hlt⟩ UINT_MAX } } := by
  have f0 : 0 < k → ¬ app.guess.pixelColorIndexes 0 ≥ 8 := fun h => Nat.not_le.mpr (hfilled 0 h)
  have f1 : 1 < k → ¬ app.guess.pixelColorIndexes 1 ≥ 8 := fun h => Nat.not_le.mpr (hfilled 1 h)
  have f2 : 2 < k → ¬ app.guess.pixelColorIndexes 2 ≥ 8 := fun h => Nat.not_le.mpr (hfilled 2 h)
  have f3 : 3 < k → ¬ app.guess.pixelColorIndexes 3 ≥ 8 := fun h => Nat.not_le.mpr (hfilled 3 h)
  have f4 : 4 < k → app.guess.pixelColorIndexes 4 < 8 := fun h => hfilled 4 h
  have e1 : k ≤ 1 → app.guess.pixelColorIndexes 1 ≥ 8 := fun h => hempty 1 h
  have e2 : k ≤ 2 → app.guess.pixelColorIndexes 2 ≥ 8 := fun h => hempty 2 h
  have e3 : k ≤ 3 → app.guess.pixelColorIndexes 3 ≥ 8 := fun h => hempty 3 h
  have e4 : k ≤ 4 → ¬ app.guess.pixelColorIndexes 4 < 8 := fun h => Nat.not_lt.mpr (hempty 4 h)
  intro hlt
  interval_cases k
  · simp only [App.RevertOneGuessPin, App.revertLoop, slots]
    rw [if_neg (e4 (by decide)), if_neg (f0 (by decide)), if_pos (e1 (by decide))]
    rfl
  · simp only [App.RevertOneGuessPin, App.revertLoop, slots]
    rw [if_neg (e4 (by decide)), if_neg (f0 (by decide)), if_neg (f1 (by decide)),
      if_pos (e2 (by decide))]
    rfl
  · simp only [App.RevertOneGuessPin, App.revertLoop, slots]
    rw [if_neg (e4 (by decide)), if_neg (f0 (by decide)), if_neg (f1 (by decide)),
      if_neg (f2 (by decide)), if_pos (e3 (by decide))]
    rfl
  · simp only [App.RevertOneGuessPin, App.revertLoop, slots]
    rw [if_neg (e4 (by decide)), if_neg (f0 (by decide)), if_neg (f1 (by decide)),
      if_neg (f2 (by decide)), if_neg (f3 (by decide)),
      if_pos (Nat.le_of_not_lt (e4 (by decide)))]
    rfl
  · simp only [App.RevertOneGuessPin]
    rw [if_pos (f4 (by decide))]
    rfl

/-! ## Buffer editing: the claims -/

/-- C9 as stated fails: `nineGuesses` is not over and has an empty buffer; five palette
clicks on colour 1 and one confirm click add two entries to its history (the guess and
the reveal guess), not exactly one. -/
theorem C9_counterexample :
    nineGuesses.IsGameOver = false ∧
    (∀ i : Fin 5, nineGuesses.guess.pixelColorIndexes i ≥ 8) ∧
    nineGuesses.board.guesses.length = 9 ∧
    ((((((nineGuesses.Update 91 921).Update 91 921).Update 91 921).Update 91 921).Update
        91 921).Update 581 921).board.guesses.length = 11 ∧
    ((((((nineGuesses.Update 91 921).Update 91 921).Update 91 921).Update 91 921).Update
        91 921).Update 581 921).board.guesses.length ≠ nineGuesses.board.guesses.length + 1 := by
  decide

/-- C9 amended: in a session that is not over and whose buffer is empty, five palette
clicks with colours `c 0 .. c 4` (each in `0..7`) followed by a confirm click append to
the history the guess with pins `c`, scored against the secret, leave the buffer fully
empty (`UINT_MAX` in every slot), and append after that guess the reveal guess exactly
when it is the tenth guess and scores fewer than 5 exact matches; otherwise exactly one
entry is added. -/
theorem C9_five_clicks_then_confirm (app : App) (hnot : app.IsGameOver = false)
    (hempty : ∀ i : Fin 5, app.guess.pixelColorIndexes i ≥ 8)
    (c : Fin 5 → Nat) (hc : ∀ i, c i < 8) (xs ys : Fin 5 → Int)
    (hpalette : ∀ k : Fin 5, ys k > 920 ∧ xs k > 20 ∧ (xs k - 20).tdiv 70 = (c k : Int))
    (xc yc : Int) (hconfirm : yc > 920 ∧ xc > 20 ∧ (xc - 20).tdiv 70 ≥ 8) :
    ((((((app.Update (xs 0) (ys 0)).Update (xs 1) (ys 1)).Update (xs 2) (ys 2)).Update
        (xs 3) (ys 3)).Update (xs 4) (ys 4)).Update xc yc).board.guesses =
      app.board.guesses ++ [PinGuess.PinGuess { pixelColorIndexes := c } app.actualPins] ++
        (if app.board.guesses.length = 9 ∧
            (PinGuessResult.PinGuessResult { pixelColorIndexes := c }
              app.actualPins).correctColorPosition < 5
          then [PinGuess.PinGuess app.actualPins app.actualPins] else []) ∧
    (∃ entry : PinGuess,
      ((((((app.Update (xs 0) (ys 0)).Update (xs 1) (ys 1)).Update (xs 2) (ys 2)).Update
        (xs 3) (ys 3)).Update (xs 4) (ys 4)).Update xc yc).board.guesses[
          app.board.guesses.length]? = some entry ∧
      entry.state.pixelColorIndexes = c ∧
      entry.result = PinGuessResult.PinGuessResult { pixelColorIndexes := c } app.actualPins) ∧
    ((((((app.Update (xs 0) (ys 0)).Update (xs 1) (ys 1)).Update (xs 2) (ys 2)).Update
        (xs 3) (ys 3)).Update (xs 4) (ys 4)).Update xc yc).guess.pixelColorIndexes =
      (fun _ => UINT_MAX) ∧
    (app.board.guesses.length < 9 ∨
        (PinGuessResult.PinGuessResult { pixelColorIndexes := c }
          app.actualPins).correctColorPosition = 5 →
      ((((((app.Update (xs 0) (ys 0)).Update (xs 1) (ys 1)).Update (xs 2) (ys 2)).Update
        (xs 3) (ys 3)).Update (xs 4) (ys 4)).Update xc yc).board.guesses.length =
        app.board.guesses.length + 1) := by
  have hlen := length_lt_of_not_over app hnot
  rw [five_clicks app hnot hempty c hc xs ys hpalette,
    Update_confirm ({ app with guess := { pixelColorIndexes := c } } : App)
      ((IsGameOver_congr _ app rfl).trans hnot) xc yc hconfirm.1 hconfirm.2.1
      hconfirm.2.2 (hc 4)]
  have hentry : ∀ tail : List PinGuess,
      (app.board.guesses ++ [PinGuess.PinGuess { pixelColorIndexes := c } app.actualPins] ++
        tail)[app.board.guesses.length]? =
      some (PinGuess.PinGuess { pixelColorIndexes := c } app.actualPins) := by
    intro tail
    rw [List.append_assoc, List.getElem?_append_right (le_refl _)]
    simp
  have hback : Board.back ({ app with guess := { pixelColorIndexes := c } } : App).MakeAGuess.board
      = some (PinGuess.PinGuess { pixelColorIndexes := c } app.actualPins) := by
    simp only [App.MakeAGuess]
    exact back_append _ _
  by_cases hrev : app.board.guesses.length = 9 ∧
      (PinGuessResult.PinGuessResult { pixelColorIndexes := c }
        app.actualPins).correctColorPosition < 5
  · have hadd : (({ app with guess := { pixelColorIndexes := c } } : App).MakeAGuess).AddActual =
        { ({ app with guess := { pixelColorIndexes := c } } : App).MakeAGuess with
          board := { guesses := (app.board.guesses ++
            [PinGuess.PinGuess { pixelColorIndexes := c } app.actualPins]) ++
            [PinGuess.PinGuess app.actualPins app.actualPins] } } := by
      unfold App.AddActual
      rw [hback]
      simp [App.MakeAGuess, hrev.1, PinGuess.PinGuess, hrev.2]
    rw [hadd, if_pos hrev]
    refine ⟨rfl,
      ⟨PinGuess.PinGuess { pixelColorIndexes := c } app.actualPins, hentry _, rfl, rfl⟩,
      rfl, ?_⟩
    intro h
    rcases h with h | h
    · omega
    · have := hrev.2
      omega
  · have hadd : (({ app with guess := { pixelColorIndexes := c } } : App).MakeAGuess).AddActual =
        ({ app with guess := { pixelColorIndexes := c } } : App).MakeAGuess := by
      unfold App.AddActual
      rw [hback]
      by_cases h9 : app.board.guesses.length = 9
      · have hge : ¬ (PinGuessResult.PinGuessResult { pixelColorIndexes := c }
            app.actualPins).correctColorPosition < 5 := fun h => hrev ⟨h9, h⟩
        simp [App.MakeAGuess, PinGuess.PinGuess, hge]
      · simp [App.MakeAGuess, h9]
    rw [hadd, if_neg hrev]
    refine ⟨by simp [App.MakeAGuess],
      ⟨PinGuess.PinGuess { pixelColorIndexes := c } app.actualPins, ?_, rfl, rfl⟩, rfl, ?_⟩
    · have := hentry []
      simp [App.MakeAGuess]
    intro _
    simp [App.MakeAGuess]

/-- C9 (amended) at a concrete input: colours `0,1,2,3,4` clicked on a fresh session. -/
theorem C9_five_clicks_then_confirm_witness :
    (((((((App.fresh sampleSecret).Update 21 921).Update 91 921).Update 161 921).Update
        231 921).Update 301 921).Update 581 921).guess.pixelColorIndexes =
      (fun _ => UINT_MAX) :=
  (C9_five_clicks_then_confirm (App.fresh sampleSecret) (by decide) (by decide)
    ![0, 1, 2, 3, 4] (by decide) ![21, 91, 161, 231, 301] ![921, 921, 921, 921, 921]
    (by decide) 581 921 (by decide)).2.2.1

/-- C10: on a gap-free buffer with `k` filled slots, `RevertOneGuessPin` sets slot
`k - 1` to `UINT_MAX` and leaves every other slot unchanged when `1 ≤ k ≤ 5`; when `k = 0`
it changes nothing, so any number of calls has the effect of one call.  The history is
unchanged in both cases. -/
theorem C10_revert_last (app : App) (k : Nat) (hk : k ≤ 5)
    (hfilled : ∀ i : Fin 5, i.val < k → app.guess.pixelColorIndexes i < 8)
    (hempty : ∀ i : Fin 5, k ≤ i.val → app.guess.pixelColorIndexes i ≥ 8) :
    (app.RevertOneGuessPin).board = app.board ∧
    (1 ≤ k → ∀ i : Fin 5, (app.RevertOneGuessPin).guess.pixelColorIndexes i =
      if i.val = k - 1 then UINT_MAX else app.guess.pixelColorIndexes i) ∧
    (k = 0 → app.RevertOneGuessPin = app ∧
      ∀ N : Nat, App.RevertOneGuessPin^[N + 1] app = app.RevertOneGuessPin) := by
  refine ⟨?_, ?_, ?_⟩
  · unfold App.RevertOneGuessPin
    split <;> rfl
  · intro hk1 i
    have hlt : k - 1 < 5 := by omega
    rw [revert_gapfree app k hk1 hk hfilled hempty hlt]
    by_cases hi : i.val = k - 1
    · have : i = ⟨k - 1, hlt⟩ := Fin.ext hi
      rw [if_pos hi, this]
      simp
    · have : i ≠ ⟨k - 1, hlt⟩ := fun h => hi (by rw [h])
      rw [if_neg hi]
      simp [Function.update_noteq this]
  · intro hk0
    have hall : ∀ i : Fin 5, app.guess.pixelColorIndexes i ≥ 8 :=
      fun i => hempty i (by omega)
    refine ⟨revert_empty app hall, fun N => ?_⟩
    rw [revert_iterate_empty app hall, revert_empty app hall]

/-- C10 at a concrete input: the buffer `[0,1,_,_,_]` (`k = 2`) loses its slot 1. -/
theorem C10_revert_last_witness :
    (twoFilled.RevertOneGuessPin).board = twoFilled.board ∧
    (twoFilled.RevertOneGuessPin).guess.pixelColorIndexes 1 = UINT_MAX ∧
    (twoFilled.RevertOneGuessPin).guess.pixelColorIndexes 0 = 0 :=
  ⟨(C10_revert_last twoFilled 2 (by decide) (by decide) (by decide)).1,
    (C10_revert_last twoFilled 2 (by decide) (by decide) (by decide)).2.1 (by decide) 1,
    by decide⟩

/-! ## Scoring against classic peg counting -/

theorem occurrences_eq_card (s : PinState) (c : Nat) :
    occurrences s c = (Finset.univ.filter (fun i : Fin 5 => s.pixelColorIndexes i = c)).card := by
  rw [card_filter_slots]
  rfl

theorem min_occurrences_le_fiber (guess actual : PinState) (c : Nat) :
    min (occurrences guess c) (occurrences actual c) ≤
      ((Finset.univ.filter (fun i : Fin 5 =>
          ∃ j : Fin 5, guess.pixelColorIndexes i = actual.pixelColorIndexes j)).filter
        (fun i => guess.pixelColorIndexes i = c)).card := by
  by_cases h : ∃ j : Fin 5, actual.pixelColorIndexes j = c
  · obtain ⟨j, hj⟩ := h
    refine le_trans (min_le_left _ _) ?_
    rw [occurrences_eq_card]
    apply Finset.card_le_card
    intro i hi
    simp only [Finset.mem_filter, Finset.mem_univ, true_and] at hi ⊢
    exact ⟨⟨j, by rw [hi, hj]⟩, hi⟩
  · have hzero : occurrences actual c = 0 := by
      rw [occurrences_eq_card, Finset.card_eq_zero, Finset.filter_eq_empty_iff]
      intro j _ hj
      exact h ⟨j, hj⟩
    rw [hzero]
    simp

theorem sum_min_le_matched (guess actual : PinState) :
    ((Finset.range 8).sum fun c => min (occurrences guess c) (occurrences actual c)) ≤
      (Finset.univ.filter (fun i : Fin 5 =>
        ∃ j : Fin 5, guess.pixelColorIndexes i = actual.pixelColorIndexes j)).card := by
  have hfib := Finset.card_eq_sum_card_fiberwise
    (f := fun i : Fin 5 => guess.pixelColorIndexes i)
    (s := (Finset.univ.filter (fun i : Fin 5 =>
        (∃ j : Fin 5, guess.pixelColorIndexes i = actual.pixelColorIndexes j))).filter
          (fun i => guess.pixelColorIndexes i < 8))
    (t := Finset.range 8)
    (by
      intro i hi
      simp only [Finset.mem_filter] at hi
      exact Finset.mem_range.mpr hi.2)
  calc ((Finset.range 8).sum fun c => min (occurrences guess c) (occurrences actual c))
      ≤ (Finset.range 8).sum fun c =>
          (((Finset.univ.filter (fun i : Fin 5 =>
            (∃ j : Fin 5, guess.pixelColorIndexes i = actual.pixelColorIndexes j))).filter
              (fun i => guess.pixelColorIndexes i < 8)).filter
                (fun i => guess.pixelColorIndexes i = c)).card := by
        apply Finset.sum_le_sum
        intro c hc
        refine le_trans (min_occurrences_le_fiber guess actual c) ?_
        apply Finset.card_le_card
        intro i hi
        simp only [Finset.mem_filter, Finset.mem_univ, true_and] at hi ⊢
        exact ⟨⟨hi.1, by rw [hi.2]; exact Finset.mem_range.mp hc⟩, hi.2⟩
    _ = ((Finset.univ.filter (fun i : Fin 5 =>
            (∃ j : Fin 5, guess.pixelColorIndexes i = actual.pixelColorIndexes j))).filter
              (fun i => guess.pixelColorIndexes i < 8)).card := hfib.symm
    _ ≤ _ := Finset.card_le_card (Finset.filter_subset _ _)

theorem matched_le_black_add_white (guess actual : PinState) :
    ((Finset.univ.filter (fun i : Fin 5 =>
        ∃ j : Fin 5, guess.pixelColorIndexes i = actual.pixelColorIndexes j)).card : Int) ≤
      (PinGuessResult.PinGuessResult guess actual).correctColorPosition +
        (PinGuessResult.PinGuessResult guess actual).correctPositionOnly := by
  rw [score_eq]
  show (_ : Int) ≤ ((_ : Nat) : Int) + ((_ : Nat) : Int)
  norm_cast
  refine le_trans (Finset.card_le_card ?_) (Finset.card_union_le _ _)
  intro i hi
  simp only [Finset.mem_filter, Finset.mem_univ, true_and, Finset.mem_union] at hi ⊢
  obtain ⟨j, hj⟩ := hi
  by_cases hex : guess.pixelColorIndexes i = actual.pixelColorIndexes i
  · exact Or.inl hex
  · right
    unfold whiteAt
    rw [decide_eq_true_eq]
    refine ⟨hex, j, ?_, hj⟩
    intro hji
    exact hex (by rw [hj, hji])

theorem classic_le_white (guess actual : PinState) :
    classicWhitePegs guess actual ≤
      (PinGuessResult.PinGuessResult guess actual).correctPositionOnly := by
  have h1 := sum_min_le_matched guess actual
  have h2 := matched_le_black_add_white guess actual
  unfold classicWhitePegs
  have h3 : (((Finset.range 8).sum fun c =>
      min (occurrences guess c) (occurrences actual c) : Nat) : Int) ≤
      ((Finset.univ.filter (fun i : Fin 5 =>
        ∃ j : Fin 5, guess.pixelColorIndexes i = actual.pixelColorIndexes j)).card : Int) := by
    exact_mod_cast h1
  linarith

/-- C11: for every fully populated guess and secret (five palette indexes `0..7` each),
the white counter computed by the scoring constructor is never smaller than the classic
white-peg count, that is the sum over the 8 colours of the minimum of the occurrences in
guess and in secret, minus the exact matches: the code can over-count, never
under-count. -/
theorem C11_white_at_least_classic (guess actual : PinState)
    (_hguess : ∀ i : Fin 5, guess.pixelColorIndexes i < 8)
    (_hactual : ∀ i : Fin 5, actual.pixelColorIndexes i < 8) :
    classicWhitePegs guess actual ≤
      (PinGuessResult.PinGuessResult guess actual).correctPositionOnly ∧
    (((Finset.range 8).sum fun c =>
        min (occurrences guess c) (occurrences actual c) : Nat) : Int) -
        (PinGuessResult.PinGuessResult guess actual).correctColorPosition ≤
      (PinGuessResult.PinGuessResult guess actual).correctPositionOnly :=
  ⟨classic_le_white guess actual, classic_le_white guess actual⟩

/-- C11 at a concrete input: for the guess `[0,0,1,2,3]` and the secret `[0,1,1,2,3]` the
classic count is 0 and the code counts 1 white pin. -/
theorem C11_white_at_least_classic_witness :
    classicWhitePegs { pixelColorIndexes := ![0, 0, 1, 2, 3] }
        { pixelColorIndexes := ![0, 1, 1, 2, 3] } = 0 ∧
    (PinGuessResult.PinGuessResult { pixelColorIndexes := ![0, 0, 1, 2, 3] }
        { pixelColorIndexes := ![0, 1, 1, 2, 3] }).correctPositionOnly = 1 ∧
    classicWhitePegs { pixelColorIndexes := ![0, 0, 1, 2, 3] }
        { pixelColorIndexes := ![0, 1, 1, 2, 3] } ≤
      (PinGuessResult.PinGuessResult { pixelColorIndexes := ![0, 0, 1, 2, 3] }
        { pixelColorIndexes := ![0, 1, 1, 2, 3] }).correctPositionOnly :=
  ⟨by decide, by decide,
    (C11_white_at_least_classic { pixelColorIndexes := ![0, 0, 1, 2, 3] }
      { pixelColorIndexes := ![0, 1, 1, 2, 3] } (by decide) (by decide)).1⟩
